import Mathlib

/-!
Verification of the decimal-coin core (`DecCoin` / `DecCoins`) of this
repository.  The list type `DecCoins` with its merge arithmetic, validation,
truncation and parsing is embedded directly from the source file; the
underlying fixed-precision decimal number type `Dec`, the integer `Coin`
type and the denom/regex helpers are not part of the shown source and are
modelled from the spec.  Go panics are embedded as `Option.none`; recoverable
validation errors as `Except.error`, keeping the two failure classes disjoint.
-/

namespace CosmosDec

/-- Modelled from the spec: the fixed-point decimal type (`FixedDecimal`,
`Dec` in the source) keeps a fixed number of decimal digits of precision;
its implementation is not in the shown source.  `18` is the precision used
by the repository. -/
def decPrecision : Nat := 18

/-- Modelled from the spec: the scaling unit `10 ^ precision`. -/
def decOne : Int := (10 : Int) ^ decPrecision

/-- Modelled from the spec: a `Dec` is an integer scaled by `decOne`,
i.e. `val` represents the rational `val / decOne`. -/
structure Dec where
  val : Int
deriving DecidableEq

/-- Modelled from the spec: the zero decimal. -/
def ZeroDec : Dec := ⟨0⟩

/-- Modelled from the spec: the decimal one. -/
def OneDec : Dec := ⟨decOne⟩

/-- Modelled from the spec: `NewDec` builds a decimal from an integer. -/
def NewDec (n : Int) : Dec := ⟨n * decOne⟩

/-- Modelled from the spec: `NewDecFromInt` builds a decimal from an integer. -/
def NewDecFromInt (i : Int) : Dec := ⟨i * decOne⟩

/-- Modelled from the spec: exact addition. -/
def Dec.Add (a b : Dec) : Dec := ⟨a.val + b.val⟩

/-- Modelled from the spec: exact subtraction. -/
def Dec.Sub (a b : Dec) : Dec := ⟨a.val - b.val⟩

/-- Modelled from the spec: negation. -/
def Dec.Neg (a : Dec) : Dec := ⟨-a.val⟩

/-- Modelled from the spec: zero test. -/
def Dec.IsZero (a : Dec) : Bool := a.val = 0

/-- Modelled from the spec: negativity test. -/
def Dec.IsNegative (a : Dec) : Bool := a.val < 0

/-- Modelled from the spec: positivity test. -/
def Dec.IsPositive (a : Dec) : Bool := 0 < a.val

/-- Modelled from the spec: strict comparison. -/
def Dec.LT (a b : Dec) : Bool := a.val < b.val

/-- Modelled from the spec: non-strict comparison. -/
def Dec.LTE (a b : Dec) : Bool := a.val ≤ b.val

/-- Modelled from the spec: `TruncateInt` returns the integer part,
rounding toward zero (`Int.tdiv` is truncated division). -/
def Dec.TruncateInt (a : Dec) : Int := a.val.tdiv decOne

/-- Modelled from the spec: multiplication at fixed precision; the spec
leaves the non-representable case of the exact variant implementation
defined and forbids rounding away from zero, so both variants are modelled
as rounding toward zero. -/
def Dec.Mul (a b : Dec) : Dec := ⟨(a.val * b.val).tdiv decOne⟩

/-- Modelled from the spec: truncating multiplication, rounding toward zero. -/
def Dec.MulTruncate (a b : Dec) : Dec := ⟨(a.val * b.val).tdiv decOne⟩

/-- Modelled from the spec: division at fixed precision, rounding toward
zero (see `Dec.Mul` for the exact/truncating distinction). -/
def Dec.Quo (a b : Dec) : Dec := ⟨(a.val * decOne).tdiv b.val⟩

/-- Modelled from the spec: truncating division, rounding toward zero. -/
def Dec.QuoTruncate (a b : Dec) : Dec := ⟨(a.val * decOne).tdiv b.val⟩

/-- Modelled from the spec: the integer coin (`SingleAmount`); its
implementation is not in the shown source. -/
structure Coin where
  Denom : String
  Amount : Int
deriving DecidableEq

/-- The integer coin collection type. -/
abbrev Coins := List Coin

/-- Modelled from the spec: a denom must not contain whitespace. -/
def coinDenomHasSpace (d : String) : Bool := d.data.any (fun c => c = ' ')

/-- Modelled from the spec / the source doc comment of `IsValid`: a denom
must not contain upper case characters. -/
def coinDenomHasUpper (d : String) : Bool := d.data.any (fun c => c.isUpper)

/-- Modelled from the spec: `validateCoinDenomContainsSpace`, used by
`DecCoin.Validate`, is not in the shown source. -/
def validateCoinDenomContainsSpace (d : String) : Except String Unit :=
  if coinDenomHasSpace d then Except.error ("denom cannot contain spaces") else Except.ok ()

/-- Modelled from the spec: `validateCoinDenomCase`, used by
`DecCoin.Validate`, is not in the shown source. -/
def validateCoinDenomCase (d : String) : Except String Unit :=
  if coinDenomHasUpper d then Except.error ("denom cannot contain upper case characters") else Except.ok ()

/-- Modelled from the spec: `NewCoin` is not in the shown source; per the
spec every constructor validates (non-negative amount, denom checks), and a
violation is a panic (`none`). -/
def NewCoin (denom : String) (amount : Int) : Option Coin :=
  if amount < 0 then none
  else if coinDenomHasSpace denom then none
  else if coinDenomHasUpper denom then none
  else some ⟨denom, amount⟩

/-- `DecCoin`: a denomination together with a decimal amount. -/
structure DecCoin where
  Denom : String
  Amount : Dec
deriving DecidableEq

/-- `validateDecCoinAmount`: in strict mode the amount must be strictly
positive, otherwise non-negative. -/
def validateDecCoinAmount (amount : Dec) (strict : Bool) : Except String Unit :=
  if strict && amount.LTE ZeroDec then Except.error ("non-positive coin amount")
  else if !strict && amount.LT ZeroDec then Except.error ("negative coin amount")
  else Except.ok ()

/-- `DecCoin.Validate`: validates the amount (strict or lax mode) and the
denom (no spaces, no upper case). -/
def DecCoin.Validate (coin : DecCoin) (strict : Bool) : Except String Unit := do
  validateDecCoinAmount coin.Amount strict
  validateCoinDenomContainsSpace coin.Denom
  validateCoinDenomCase coin.Denom

/-- `NewDecCoinFromDec`: validating constructor, panics (`none`) if
validation in lax mode fails. -/
def NewDecCoinFromDec (denom : String) (amount : Dec) : Option DecCoin :=
  match DecCoin.Validate ⟨denom, amount⟩ false with
  | Except.ok _ => some ⟨denom, amount⟩
  | Except.error _ => none

/-- `DecCoin.Plus`: adds the amounts of two coins; panics (`none`) when the
denoms differ — a fatal condition, deliberately distinct from the
recoverable `Except`-class validation errors. -/
def DecCoin.Plus (coin coinB : DecCoin) : Option DecCoin :=
  if coin.Denom ≠ coinB.Denom then none
  else some ⟨coin.Denom, coin.Amount.Add coinB.Amount⟩

/-- `DecCoin.Minus`: subtracts the amounts of two coins; panics (`none`)
when the denoms differ. -/
def DecCoin.Minus (coin coinB : DecCoin) : Option DecCoin :=
  if coin.Denom ≠ coinB.Denom then none
  else some ⟨coin.Denom, coin.Amount.Sub coinB.Amount⟩

/-- `DecCoin.TruncateDecimal`: integer part plus decimal change, both
rebuilt through the validating constructors (which can panic). -/
def DecCoin.TruncateDecimal (coin : DecCoin) : Option (Coin × DecCoin) := do
  let truncated := coin.Amount.TruncateInt
  let change := coin.Amount.Sub (NewDecFromInt truncated)
  let intCoin ← NewCoin coin.Denom truncated
  let changeCoin ← NewDecCoinFromDec coin.Denom change
  return (intCoin, changeCoin)

/-- `DecCoin.IsPositive`. -/
def DecCoin.IsPositive (coin : DecCoin) : Bool := coin.Amount.IsPositive

/-- The decimal coin collection type. -/
abbrev DecCoins := List DecCoin

/-- `DecCoins.Plus`: sorted-merge union of two coin sets, dropping exact
zero sums.  In the equal-denom branch the source calls `DecCoin.Plus`,
which cannot panic there because the denoms were just compared equal, so
the summed coin is written directly. -/
def DecCoins.Plus (coins coinsB : DecCoins) : DecCoins :=
  match coins, coinsB with
  | [], coinsB => coinsB
  | coins, [] => coins
  | coinA :: restA, coinB :: restB =>
    if coinA.Denom < coinB.Denom then
      coinA :: DecCoins.Plus restA (coinB :: restB)
    else if coinA.Denom = coinB.Denom then
      if (coinA.Amount.Add coinB.Amount).IsZero then
        DecCoins.Plus restA restB
      else
        ⟨coinA.Denom, coinA.Amount.Add coinB.Amount⟩ :: DecCoins.Plus restA restB
    else
      coinB :: DecCoins.Plus (coinA :: restA) restB
termination_by coins.length + coinsB.length
decreasing_by all_goals simp_arith

/-- `DecCoins.Negative`: negates every amount. -/
def DecCoins.Negative (coins : DecCoins) : DecCoins :=
  coins.map (fun coin => ⟨coin.Denom, coin.Amount.Neg⟩)

/-- `DecCoins.Minus`: adds the negation. -/
def DecCoins.Minus (coins coinsB : DecCoins) : DecCoins :=
  coins.Plus coinsB.Negative

/-- `DecCoins.MulDec`: multiplies every amount by a decimal. -/
def DecCoins.MulDec (coins : DecCoins) (d : Dec) : DecCoins :=
  match coins with
  | [] => []
  | coin :: rest => ⟨coin.Denom, coin.Amount.Mul d⟩ :: DecCoins.MulDec rest d

/-- `DecCoins.MulDecTruncate`: multiplies every amount, truncating. -/
def DecCoins.MulDecTruncate (coins : DecCoins) (d : Dec) : DecCoins :=
  match coins with
  | [] => []
  | coin :: rest => ⟨coin.Denom, coin.Amount.MulTruncate d⟩ :: DecCoins.MulDecTruncate rest d

/-- `DecCoins.QuoDec`: divides every amount by a decimal. -/
def DecCoins.QuoDec (coins : DecCoins) (d : Dec) : DecCoins :=
  match coins with
  | [] => []
  | coin :: rest => ⟨coin.Denom, coin.Amount.Quo d⟩ :: DecCoins.QuoDec rest d

/-- `DecCoins.QuoDecTruncate`: divides every amount, truncating. -/
def DecCoins.QuoDecTruncate (coins : DecCoins) (d : Dec) : DecCoins :=
  match coins with
  | [] => []
  | coin :: rest => ⟨coin.Denom, coin.Amount.QuoTruncate d⟩ :: DecCoins.QuoDecTruncate rest d

/-- The loop body of `DecCoins.TruncateDecimal`: truncate each coin,
collect the integer parts in order and accumulate the changes via `Plus`. -/
def DecCoins.truncGo : DecCoins → Coins → DecCoins → Option (Coins × DecCoins)
  | [], out, changeSum => some (out, changeSum)
  | coin :: rest, out, changeSum => do
    let (truncated, change) ← coin.TruncateDecimal
    DecCoins.truncGo rest (out ++ [truncated]) (changeSum.Plus [change])

/-- `DecCoins.TruncateDecimal`: per-coin truncation with accumulated change. -/
def DecCoins.TruncateDecimal (coins : DecCoins) : Option (Coins × DecCoins) :=
  DecCoins.truncGo coins [] []

/-- `DecCoins.AmountOf`: binary search over the sorted sequence. -/
def DecCoins.AmountOf (coins : DecCoins) (denom : String) : Dec :=
  match coins with
  | [] => ZeroDec
  | [coin] => if coin.Denom = denom then coin.Amount else ZeroDec
  | a :: b :: rest =>
    let whole := a :: b :: rest
    let midIdx := whole.length / 2
    let coin := whole.getD midIdx ⟨"", ZeroDec⟩
    if denom < coin.Denom then
      DecCoins.AmountOf (whole.take midIdx) denom
    else if denom = coin.Denom then
      coin.Amount
    else
      DecCoins.AmountOf (whole.drop (midIdx + 1)) denom
termination_by coins.length
decreasing_by
  all_goals simp [List.length_take, List.length_drop]
  all_goals omega

/-- `DecCoins.HasNegative`: linear scan for a negative amount. -/
def DecCoins.HasNegative (coins : DecCoins) : Bool :=
  coins.any (fun coin => coin.Amount.IsNegative)

/-- `DecCoins.IsZero`: linear scan, true when every amount is zero. -/
def DecCoins.IsZero (coins : DecCoins) : Bool :=
  coins.all (fun coin => coin.Amount.IsZero)

/-- The validation loop of `DecCoins.IsValid`: every coin validates
strictly and every denom strictly exceeds the running previous denom. -/
def DecCoins.validAscFrom (lowDenom : String) : DecCoins → Bool
  | [] => true
  | coin :: rest =>
    (match coin.Validate true with | Except.ok _ => true | Except.error _ => false)
      && decide (lowDenom < coin.Denom) && DecCoins.validAscFrom coin.Denom rest

/-- `DecCoins.IsValid`: canonical-form check (sorted strictly by denom,
every coin strictly positive with a well-formed denom). -/
def DecCoins.IsValid (coins : DecCoins) : Bool :=
  match coins with
  | [] => true
  | [coin] => match coin.Validate true with | Except.ok _ => true | Except.error _ => false
  | coin :: rest =>
    (match coin.Validate true with | Except.ok _ => true | Except.error _ => false)
      && DecCoins.validAscFrom coin.Denom rest

/-- Modelled from the spec: whitespace characters trimmed at token edges. -/
def isSpaceChar (c : Char) : Bool := c = ' ' || c = '\t' || c = '\n' || c = '\r'

/-- Modelled from the spec: `strings.TrimSpace` on the character list. -/
def trimChars (cs : List Char) : List Char :=
  ((cs.dropWhile isSpaceChar).reverse.dropWhile isSpaceChar).reverse

/-- Modelled from the spec: trim a string. -/
def strTrim (s : String) : String := ⟨trimChars s.data⟩

/-- Modelled from the spec: a denom character is alphanumeric or a slash. -/
def isDenomChar (c : Char) : Bool := c.isAlphanum || c = '/'

/-- Modelled from the spec: a denom token is nonempty, starts with a letter
and consists of denom characters. -/
def denomChearsOk (cs : List Char) : Bool :=
  match cs with
  | [] => false
  | c :: rest => c.isAlpha && rest.all isDenomChar

/-- Modelled from the spec: fold a digit list into a natural number. -/
def digitsToNat (cs : List Char) : Nat :=
  cs.foldl (fun acc c => acc * 10 + (c.toNat - 48)) 0

/-- Modelled from the spec: `NewDecFromStr` parses an optional sign, an
integer digit run and an optional fractional digit run of at most
`decPrecision` digits into a `Dec`. -/
def NewDecFromStr (s : String) : Except String Dec :=
  let cs := s.data
  let (neg, cs) := match cs with
    | '-' :: rest => (true, rest)
    | '+' :: rest => (false, rest)
    | cs => (false, cs)
  let intPart := cs.takeWhile Char.isDigit
  let afterInt := cs.dropWhile Char.isDigit
  if intPart.isEmpty then Except.error ("invalid decimal string")
  else
    match afterInt with
    | [] =>
      let v : Int := (digitsToNat intPart : Int) * decOne
      Except.ok ⟨if neg then -v else v⟩
    | '.' :: fracPart =>
      if fracPart.isEmpty || !fracPart.all Char.isDigit then
        Except.error ("invalid decimal string")
      else if decPrecision < fracPart.length then
        Except.error ("too many decimal digits")
      else
        let v : Int := (digitsToNat intPart : Int) * decOne
          + (digitsToNat fracPart : Int) * ((10 : Int) ^ (decPrecision - fracPart.length))
        Except.ok ⟨if neg then -v else v⟩
    | _ => Except.error ("invalid decimal string")

/-- Modelled from the spec: `parseDecCoinString` (the `reDecCoin` regex is
not in the shown source): trim, read `<decimal-number><denom>`. -/
def parseDecCoinString (coinStr : String) : Except String DecCoin :=
  let cs := trimChars coinStr.data
  let (signPart, rest0) := match cs with
    | '-' :: rest => (['-'], rest)
    | '+' :: rest => (['+'], rest)
    | cs => (([] : List Char), cs)
  let numPart := rest0.takeWhile (fun c => c.isDigit || c = '.')
  let denomPart := rest0.dropWhile (fun c => c.isDigit || c = '.')
  if !denomChearsOk denomPart then Except.error ("invalid decimal coin expression")
  else
    match NewDecFromStr ⟨signPart ++ numPart⟩ with
    | Except.error _ => Except.error ("failed to parse decimal coin amount")
    | Except.ok amount => Except.ok ⟨⟨denomPart⟩, amount⟩

/-- `ParseDecCoin`: parse a single decimal coin and validate it laxly. -/
def ParseDecCoin (coinStr : String) : Except String DecCoin :=
  match parseDecCoinString coinStr with
  | Except.error e => Except.error ("failed to parse decimal coin: " ++ e)
  | Except.ok coin =>
    match coin.Validate false with
    | Except.error e => Except.error ("validation error: " ++ e)
    | Except.ok _ => Except.ok coin

/-- Modelled from the spec: split the (trimmed) set string at every comma
or semicolon, keeping empty tokens, as the `",|;"` regex split does. -/
def splitTokens (s : String) : List String :=
  (s.data.splitOnP (fun c => c = ',' || c = ';')).map (fun cs => (⟨cs⟩ : String))

/-- The `ParseDecCoins` loop: parse every token, failing on the first bad
token with no partial result. -/
def parseAllTokens : List String → Except String DecCoins
  | [] => Except.ok []
  | t :: ts => do
    let coin ← ParseDecCoin t
    let coins ← parseAllTokens ts
    Except.ok (coin :: coins)

/-- Insertion by denom, for the determinism sort of `ParseDecCoins`. -/
def insertByDenom (coin : DecCoin) : DecCoins → DecCoins
  | [] => [coin]
  | c :: rest =>
    if coin.Denom ≤ c.Denom then coin :: c :: rest else c :: insertByDenom coin rest

/-- The `Sort` used by `ParseDecCoins` (the source sorts by denom only;
result sets that pass the subsequent `IsValid` have distinct denoms, on
which any by-denom sort agrees). -/
def sortByDenom (coins : DecCoins) : DecCoins :=
  coins.foldr insertByDenom []

/-- `ParseDecCoins`: trim, return the empty set on empty input, split,
parse every token, sort, validate canonical form. -/
def ParseDecCoins (coinsStr : String) : Except String DecCoins :=
  let s := strTrim coinsStr
  if s.data.length = 0 then Except.ok []
  else do
    let coins ← parseAllTokens (splitTokens s)
    let sorted := sortByDenom coins
    if sorted.IsValid then Except.ok sorted
    else Except.error ("parsed decimal coins are invalid")

/-- Linear per-denom lookup on a decimal coin set: the amount of the first
entry with the given denom, zero if absent — the reference semantics used
to state per-denom properties. -/
def lookupAmount : DecCoins → String → Dec
  | [], _ => ZeroDec
  | coin :: rest, d => if coin.Denom = d then coin.Amount else lookupAmount rest d

/-- Linear per-denom lookup on an integer coin set. -/
def coinsLookup : Coins → String → Int
  | [], _ => 0
  | coin :: rest, d => if coin.Denom = d then coin.Amount else coinsLookup rest d

/-- Strictly-increasing-denom ordering of a coin set. -/
def SortedDenoms (coins : DecCoins) : Prop :=
  List.Pairwise (fun a b => a.Denom < b.Denom) coins

instance (coins : DecCoins) : Decidable (SortedDenoms coins) :=
  List.instDecidablePairwise coins

instance {ε α : Type} [DecidableEq ε] [DecidableEq α] : DecidableEq (Except ε α)
  | Except.error e, Except.error f =>
    if h : e = f then isTrue (by rw [h]) else isFalse (by simp [h])
  | Except.error _, Except.ok _ => isFalse (by simp)
  | Except.ok _, Except.error _ => isFalse (by simp)
  | Except.ok a, Except.ok b =>
    if h : a = b then isTrue (by rw [h]) else isFalse (by simp [h])

/-- A coin passes strict validation. -/
def validOk (coin : DecCoin) : Prop := coin.Validate true = Except.ok ()

instance (coin : DecCoin) : Decidable (validOk coin) := by
  unfold validOk; infer_instance

/-! ### Lookup lemmas -/

theorem lookup_eq_zero_of_forall_ne {l : DecCoins} {d : String}
    (h : ∀ c ∈ l, c.Denom ≠ d) : lookupAmount l d = ZeroDec := by
  induction l with
  | nil => rfl
  | cons c rest ih =>
    simp only [lookupAmount]
    rw [if_neg (h c (List.mem_cons_self c rest))]
    exact ih (fun x hx => h x (List.mem_cons_of_mem c hx))

theorem lookup_append_of_forall_ne_left {l1 l2 : DecCoins} {d : String}
    (h : ∀ c ∈ l1, c.Denom ≠ d) :
    lookupAmount (l1 ++ l2) d = lookupAmount l2 d := by
  induction l1 with
  | nil => rfl
  | cons c rest ih =>
    simp only [List.cons_append, lookupAmount]
    rw [if_neg (h c (List.mem_cons_self c rest))]
    exact ih (fun x hx => h x (List.mem_cons_of_mem c hx))

theorem lookup_append_of_forall_ne_right {l1 l2 : DecCoins} {d : String}
    (h : ∀ c ∈ l2, c.Denom ≠ d) :
    lookupAmount (l1 ++ l2) d = lookupAmount l1 d := by
  induction l1 with
  | nil => exact lookup_eq_zero_of_forall_ne h
  | cons c rest ih =>
    simp only [List.cons_append, lookupAmount]
    by_cases hc : c.Denom = d
    · rw [if_pos hc, if_pos hc]
    · rw [if_neg hc, if_neg hc]; exact ih

/-! ### Binary search agrees with linear lookup on sorted sets -/

theorem amountOf_eq_lookup_aux (n : Nat) :
    ∀ (coins : DecCoins), coins.length ≤ n → SortedDenoms coins → ∀ d : String,
      DecCoins.AmountOf coins d = lookupAmount coins d := by
  induction n with
  | zero =>
    intro coins hlen _ d
    rw [List.length_eq_zero.mp (Nat.le_zero.mp hlen)]
    simp [DecCoins.AmountOf, lookupAmount]
  | succ n ih =>
    intro coins hlen hs d
    match coins with
    | [] => simp [DecCoins.AmountOf, lookupAmount]
    | [c] => simp [DecCoins.AmountOf, lookupAmount]
    | a :: b :: rest =>
      rw [DecCoins.AmountOf]
      set L : List DecCoin := a :: b :: rest with hL
      set m : Nat := L.length / 2 with hm
      have hLlen : L.length = rest.length + 2 := by rw [hL]; simp
      have hmlt : m < L.length := by rw [hm]; omega
      have hmpos : 1 ≤ m := by rw [hm]; omega
      have hgetD : L.getD m ⟨"", ZeroDec⟩ = L.get ⟨m, hmlt⟩ := by
        simp [List.getD_eq_getElem?_getD, List.getElem?_eq_getElem hmlt]
      rw [hgetD]
      set c : DecCoin := L.get ⟨m, hmlt⟩ with hc
      have hdrop : L.drop m = c :: L.drop (m + 1) := by
        rw [hc]; exact List.drop_eq_getElem_cons hmlt
      have hsplit : L.take m ++ L.drop m = L := List.take_append_drop _ _
      have hp : List.Pairwise (fun x y => x.Denom < y.Denom) (L.take m ++ L.drop m) := by
        rw [hsplit]; exact hs
      obtain ⟨p1, p2, hx⟩ := List.pairwise_append.mp hp
      have hcmem : c ∈ L.drop m := by rw [hdrop]; exact List.mem_cons_self _ _
      have htake_lt : ∀ x ∈ L.take m, x.Denom < c.Denom := fun x hxm => hx x hxm c hcmem
      have hdrop_gt : ∀ y ∈ L.drop (m + 1), c.Denom < y.Denom := by
        rw [hdrop] at p2
        exact (List.pairwise_cons.mp p2).1
      have hp1 : SortedDenoms (L.take m) := p1
      have hp2 : SortedDenoms (L.drop (m + 1)) := by
        rw [hdrop] at p2
        exact (List.pairwise_cons.mp p2).2
      have hlen1 : (L.take m).length ≤ n := by
        rw [List.length_take]; omega
      have hlen2 : (L.drop (m + 1)).length ≤ n := by
        rw [List.length_drop]; omega
      by_cases h1 : d < c.Denom
      · rw [if_pos h1, ih (L.take m) hlen1 hp1 d]
        have hres : lookupAmount L d = lookupAmount (L.take m) d := by
          conv_lhs => rw [← hsplit]
          refine lookup_append_of_forall_ne_right (fun y hy => ?_)
          rcases List.mem_cons.mp (hdrop ▸ hy) with rfl | hy2
          · exact fun hne => absurd hne.symm (ne_of_lt h1)
          · exact fun hne => absurd hne.symm (ne_of_lt (lt_trans h1 (hdrop_gt y hy2)))
        rw [hres]
      · rw [if_neg h1]
        by_cases h2 : d = c.Denom
        · rw [if_pos h2]
          have hres : lookupAmount L d = lookupAmount (L.drop m) d := by
            conv_lhs => rw [← hsplit]
            refine lookup_append_of_forall_ne_left (fun y hy => ?_)
            exact fun hne => absurd (h2 ▸ hne) (ne_of_lt (htake_lt y hy))
          rw [hres, hdrop]
          simp only [lookupAmount]
          rw [if_pos h2.symm]
        · rw [if_neg h2]
          have h3 : c.Denom < d := by
            rcases lt_trichotomy d c.Denom with h | h | h
            · exact absurd h h1
            · exact absurd h h2
            · exact h
          rw [ih (L.drop (m + 1)) hlen2 hp2 d]
          have hres : lookupAmount L d = lookupAmount (L.drop (m + 1)) d := by
            conv_lhs => rw [← hsplit]
            rw [lookup_append_of_forall_ne_left
              (fun y hy => ne_of_lt (lt_trans (htake_lt y hy) h3)), hdrop]
            simp only [lookupAmount]
            rw [if_neg (ne_of_lt h3)]
          rw [hres]

theorem amountOf_eq_lookup (coins : DecCoins) (hs : SortedDenoms coins) (d : String) :
    DecCoins.AmountOf coins d = lookupAmount coins d :=
  amountOf_eq_lookup_aux coins.length coins le_rfl hs d

/-! ### Dec arithmetic helper lemmas -/

theorem dec_add_zero (x : Dec) : x.Add ZeroDec = x := by
  cases x; simp [Dec.Add, ZeroDec]

theorem dec_zero_add (x : Dec) : ZeroDec.Add x = x := by
  cases x; simp [Dec.Add, ZeroDec]

theorem dec_add_comm (x y : Dec) : x.Add y = y.Add x := by
  cases x; cases y; simp [Dec.Add]; ring

theorem dec_add_assoc (x y z : Dec) : (x.Add y).Add z = x.Add (y.Add z) := by
  cases x; cases y; cases z; simp [Dec.Add]; ring

/-! ### Plus unfolding lemmas -/

theorem plus_nil_left (B : DecCoins) : DecCoins.Plus [] B = B := by
  rw [DecCoins.Plus]

theorem plus_nil_right (A : DecCoins) : DecCoins.Plus A [] = A := by
  cases A with
  | nil => rw [DecCoins.Plus]
  | cons h t => rw [DecCoins.Plus]; simp

theorem plus_cons_cons (a : DecCoin) (A : DecCoins) (b : DecCoin) (B : DecCoins) :
    DecCoins.Plus (a :: A) (b :: B) =
      if a.Denom < b.Denom then a :: DecCoins.Plus A (b :: B)
      else if a.Denom = b.Denom then
        if (a.Amount.Add b.Amount).IsZero then DecCoins.Plus A B
        else ⟨a.Denom, a.Amount.Add b.Amount⟩ :: DecCoins.Plus A B
      else b :: DecCoins.Plus (a :: A) B := by
  rw [DecCoins.Plus]

/-! ### lookupAmount is additive over Plus -/

theorem dec_eq_of_val {x y : Dec} (h : x.val = y.val) : x = y := by
  cases x; cases y; simpa using h

theorem lookup_cons (c : DecCoin) (l : DecCoins) (d : String) :
    lookupAmount (c :: l) d = if c.Denom = d then c.Amount else lookupAmount l d := rfl

theorem lookup_plus : ∀ (A B : DecCoins), SortedDenoms A → SortedDenoms B →
    ∀ d : String, lookupAmount (DecCoins.Plus A B) d =
      (lookupAmount A d).Add (lookupAmount B d) := by
  intro A
  induction A with
  | nil =>
    intro B _ _ d
    rw [plus_nil_left]
    simp [lookupAmount, dec_zero_add]
  | cons a A' ihA =>
    intro B
    induction B with
    | nil =>
      intro _ _ d
      rw [plus_nil_right]
      simp [lookupAmount, dec_add_zero]
    | cons b B' ihB =>
      intro hA hB d
      have hA' : SortedDenoms A' := hA.of_cons
      have hB' : SortedDenoms B' := hB.of_cons
      have hAbound : ∀ x ∈ A', a.Denom < x.Denom := (List.pairwise_cons.mp hA).1
      have hBbound : ∀ x ∈ B', b.Denom < x.Denom := (List.pairwise_cons.mp hB).1
      rw [plus_cons_cons]
      by_cases hlt : a.Denom < b.Denom
      · rw [if_pos hlt,
          lookup_cons a (DecCoins.Plus A' (b :: B')) d, lookup_cons a A' d,
          ihA (b :: B') hA' hB d]
        by_cases hd : a.Denom = d
        · have hBzero : lookupAmount (b :: B') d = ZeroDec := by
            refine lookup_eq_zero_of_forall_ne (fun y hy => ?_)
            rcases List.mem_cons.mp hy with rfl | hy2
            · exact fun hne => absurd (hne.trans hd.symm) (ne_of_gt hlt)
            · exact fun hne =>
                absurd (hne.trans hd.symm) (ne_of_gt (lt_trans hlt (hBbound y hy2)))
          rw [if_pos hd, if_pos hd, hBzero, dec_add_zero]
        · rw [if_neg hd, if_neg hd]
      · rw [if_neg hlt]
        by_cases heq : a.Denom = b.Denom
        · rw [if_pos heq]
          have hAzero : a.Denom = d → lookupAmount A' d = ZeroDec := fun hd => by
            refine lookup_eq_zero_of_forall_ne (fun y hy => ?_)
            exact fun hne => absurd (hne.trans hd.symm) (ne_of_gt (hAbound y hy))
          have hBzero : a.Denom = d → lookupAmount B' d = ZeroDec := fun hd => by
            refine lookup_eq_zero_of_forall_ne (fun y hy => ?_)
            exact fun hne =>
              absurd (hne.trans (heq.symm.trans hd).symm) (ne_of_gt (hBbound y hy))
          by_cases hzero : (a.Amount.Add b.Amount).IsZero
          · rw [if_pos hzero, ihA B' hA' hB' d,
              lookup_cons a A' d, lookup_cons b B' d]
            by_cases hd : a.Denom = d
            · rw [if_pos hd, if_pos (heq.symm.trans hd), hAzero hd, hBzero hd,
                dec_add_zero]
              refine (dec_eq_of_val ?_).symm
              have hv : (a.Amount.Add b.Amount).val = 0 := by
                simpa [Dec.IsZero] using hzero
              simpa [ZeroDec] using hv
            · rw [if_neg hd, if_neg (fun h => hd (heq.trans h))]
          · rw [if_neg hzero,
              lookup_cons ⟨a.Denom, a.Amount.Add b.Amount⟩ (DecCoins.Plus A' B') d,
              ihA B' hA' hB' d, lookup_cons a A' d, lookup_cons b B' d]
            by_cases hd : a.Denom = d
            · rw [if_pos hd, if_pos hd, if_pos (heq.symm.trans hd)]
            · rw [if_neg hd, if_neg hd, if_neg (fun h => hd (heq.trans h))]
        · have hgt : b.Denom < a.Denom := by
            rcases lt_trichotomy a.Denom b.Denom with h | h | h
            · exact absurd h hlt
            · exact absurd h heq
            · exact h
          rw [if_neg heq,
            lookup_cons b (DecCoins.Plus (a :: A') B') d, lookup_cons b B' d,
            ihB hA hB' d]
          by_cases hd : b.Denom = d
          · have hAzero : lookupAmount (a :: A') d = ZeroDec := by
              refine lookup_eq_zero_of_forall_ne (fun y hy => ?_)
              rcases List.mem_cons.mp hy with rfl | hy2
              · exact fun hne => absurd (hne.trans hd.symm) (ne_of_gt hgt)
              · exact fun hne =>
                  absurd (hne.trans hd.symm) (ne_of_gt (lt_trans hgt (hAbound y hy2)))
            rw [if_pos hd, if_pos hd, hAzero, dec_zero_add]
          · rw [if_neg hd, if_neg hd]

/-! ### Membership and sortedness of Plus -/

theorem mem_plus : ∀ (A B : DecCoins) (x : DecCoin), x ∈ DecCoins.Plus A B →
    x ∈ A ∨ x ∈ B ∨
      ∃ a, a ∈ A ∧ ∃ b, b ∈ B ∧ a.Denom = b.Denom ∧
        x = ⟨a.Denom, a.Amount.Add b.Amount⟩ := by
  intro A
  induction A with
  | nil =>
    intro B x hx
    rw [plus_nil_left] at hx
    exact Or.inr (Or.inl hx)
  | cons a A' ihA =>
    intro B
    induction B with
    | nil =>
      intro x hx
      rw [plus_nil_right] at hx
      exact Or.inl hx
    | cons b B' ihB =>
      intro x hx
      rw [plus_cons_cons] at hx
      by_cases hlt : a.Denom < b.Denom
      · rw [if_pos hlt] at hx
        rcases List.mem_cons.mp hx with rfl | hx2
        · exact Or.inl (List.mem_cons_self _ _)
        · rcases ihA (b :: B') x hx2 with h | h | ⟨a2, ha2, b2, hb2, hdd, hxx⟩
          · exact Or.inl (List.mem_cons_of_mem a h)
          · exact Or.inr (Or.inl h)
          · exact Or.inr (Or.inr ⟨a2, List.mem_cons_of_mem a ha2, b2, hb2, hdd, hxx⟩)
      · rw [if_neg hlt] at hx
        by_cases heq : a.Denom = b.Denom
        · rw [if_pos heq] at hx
          by_cases hzero : (a.Amount.Add b.Amount).IsZero
          · rw [if_pos hzero] at hx
            rcases ihA B' x hx with h | h | ⟨a2, ha2, b2, hb2, hdd, hxx⟩
            · exact Or.inl (List.mem_cons_of_mem a h)
            · exact Or.inr (Or.inl (List.mem_cons_of_mem b h))
            · exact Or.inr (Or.inr ⟨a2, List.mem_cons_of_mem a ha2, b2,
                List.mem_cons_of_mem b hb2, hdd, hxx⟩)
          · rw [if_neg hzero] at hx
            rcases List.mem_cons.mp hx with rfl | hx2
            · exact Or.inr (Or.inr ⟨a, List.mem_cons_self _ _, b,
                List.mem_cons_self _ _, heq, rfl⟩)
            · rcases ihA B' x hx2 with h | h | ⟨a2, ha2, b2, hb2, hdd, hxx⟩
              · exact Or.inl (List.mem_cons_of_mem a h)
              · exact Or.inr (Or.inl (List.mem_cons_of_mem b h))
              · exact Or.inr (Or.inr ⟨a2, List.mem_cons_of_mem a ha2, b2,
                  List.mem_cons_of_mem b hb2, hdd, hxx⟩)
        · rw [if_neg heq] at hx
          rcases List.mem_cons.mp hx with rfl | hx2
          · exact Or.inr (Or.inl (List.mem_cons_self _ _))
          · rcases ihB x hx2 with h | h | ⟨a2, ha2, b2, hb2, hdd, hxx⟩
            · exact Or.inl h
            · exact Or.inr (Or.inl (List.mem_cons_of_mem b h))
            · exact Or.inr (Or.inr ⟨a2, ha2, b2, List.mem_cons_of_mem b hb2, hdd, hxx⟩)

theorem mem_plus_denom {A B : DecCoins} {x : DecCoin} (hx : x ∈ DecCoins.Plus A B) :
    (∃ a ∈ A, x.Denom = a.Denom) ∨ (∃ b ∈ B, x.Denom = b.Denom) := by
  rcases mem_plus A B x hx with h | h | ⟨a2, ha2, b2, hb2, hdd, hxx⟩
  · exact Or.inl ⟨x, h, rfl⟩
  · exact Or.inr ⟨x, h, rfl⟩
  · exact Or.inl ⟨a2, ha2, by rw [hxx]⟩

theorem plus_sorted : ∀ (A B : DecCoins), SortedDenoms A → SortedDenoms B →
    SortedDenoms (DecCoins.Plus A B) := by
  intro A
  induction A with
  | nil =>
    intro B _ hB
    rw [plus_nil_left]; exact hB
  | cons a A' ihA =>
    intro B
    induction B with
    | nil =>
      intro hA _
      rw [plus_nil_right]; exact hA
    | cons b B' ihB =>
      intro hA hB
      have hA' : SortedDenoms A' := hA.of_cons
      have hB' : SortedDenoms B' := hB.of_cons
      have hAbound : ∀ x ∈ A', a.Denom < x.Denom := (List.pairwise_cons.mp hA).1
      have hBbound : ∀ x ∈ B', b.Denom < x.Denom := (List.pairwise_cons.mp hB).1
      rw [plus_cons_cons]
      by_cases hlt : a.Denom < b.Denom
      · rw [if_pos hlt]
        refine List.pairwise_cons.mpr ⟨?_, ihA (b :: B') hA' hB⟩
        intro y hy
        rcases mem_plus_denom hy with ⟨a2, ha2, hde⟩ | ⟨b2, hb2, hde⟩
        · rw [hde]; exact hAbound a2 ha2
        · rcases List.mem_cons.mp hb2 with rfl | hb3
          · rw [hde]; exact hlt
          · rw [hde]; exact lt_trans hlt (hBbound b2 hb3)
      · rw [if_neg hlt]
        by_cases heq : a.Denom = b.Denom
        · rw [if_pos heq]
          have hmerged : SortedDenoms
              (⟨a.Denom, a.Amount.Add b.Amount⟩ :: DecCoins.Plus A' B') := by
            refine List.pairwise_cons.mpr ⟨?_, ihA B' hA' hB'⟩
            intro y hy
            rcases mem_plus_denom hy with ⟨a2, ha2, hde⟩ | ⟨b2, hb2, hde⟩
            · rw [hde]; exact hAbound a2 ha2
            · rw [hde, heq]; exact hBbound b2 hb2
          by_cases hzero : (a.Amount.Add b.Amount).IsZero
          · rw [if_pos hzero]; exact ihA B' hA' hB'
          · rw [if_neg hzero]; exact hmerged
        · have hgt : b.Denom < a.Denom := by
            rcases lt_trichotomy a.Denom b.Denom with h | h | h
            · exact absurd h hlt
            · exact absurd h heq
            · exact h
          rw [if_neg heq]
          refine List.pairwise_cons.mpr ⟨?_, ihB hA hB'⟩
          intro y hy
          rcases mem_plus_denom hy with ⟨a2, ha2, hde⟩ | ⟨b2, hb2, hde⟩
          · rcases List.mem_cons.mp ha2 with rfl | ha3
            · rw [hde]; exact hgt
            · rw [hde]; exact lt_trans hgt (hAbound a2 ha3)
          · rw [hde]; exact hBbound b2 hb2

/-! ### IsValid characterization -/

theorem validOk_iff (c : DecCoin) :
    validOk c ↔ (0 < c.Amount.val ∧ coinDenomHasSpace c.Denom = false ∧
      coinDenomHasUpper c.Denom = false) := by
  unfold validOk DecCoin.Validate validateDecCoinAmount validateCoinDenomContainsSpace
    validateCoinDenomCase
  simp only [Dec.LTE, Dec.LT, ZeroDec, Bool.true_and, Bool.not_true, Bool.false_and]
  by_cases h1 : c.Amount.val ≤ 0
  · simp [h1, Except.bind, Bind.bind]
  · simp only [h1, decide_False]
    by_cases h2 : coinDenomHasSpace c.Denom
    · simp [h2, Except.bind, Bind.bind]
    · by_cases h3 : coinDenomHasUpper c.Denom
      · simp [h2, h3, Except.bind, Bind.bind]
      · simp [h2, h3, Except.bind, Bind.bind]
        omega

theorem validate_bool_iff (c : DecCoin) :
    (match c.Validate true with
      | Except.ok _ => true
      | Except.error _ => false) = true ↔ validOk c := by
  unfold validOk
  cases h : c.Validate true with
  | ok u => cases u; simp [h]
  | error e => simp [h]

theorem validAscFrom_iff : ∀ (cs : DecCoins) (low : String),
    DecCoins.validAscFrom low cs = true ↔
      ((∀ c ∈ cs, validOk c) ∧ (∀ c ∈ cs, low < c.Denom) ∧ SortedDenoms cs) := by
  intro cs
  induction cs with
  | nil =>
    intro low
    simp [DecCoins.validAscFrom, SortedDenoms]
  | cons c rest ih =>
    intro low
    simp only [DecCoins.validAscFrom, Bool.and_eq_true, decide_eq_true_eq,
      validate_bool_iff, ih c.Denom]
    constructor
    · rintro ⟨⟨hok, hlow⟩, hrest_ok, hrest_lt, hrest_sorted⟩
      refine ⟨?_, ?_, ?_⟩
      · intro x hx
        rcases List.mem_cons.mp hx with rfl | hx2
        · exact hok
        · exact hrest_ok x hx2
      · intro x hx
        rcases List.mem_cons.mp hx with rfl | hx2
        · exact hlow
        · exact lt_trans hlow (hrest_lt x hx2)
      · exact List.pairwise_cons.mpr ⟨hrest_lt, hrest_sorted⟩
    · rintro ⟨hall_ok, hall_lt, hsorted⟩
      obtain ⟨hhead_lt, hrest_sorted⟩ := List.pairwise_cons.mp hsorted
      refine ⟨⟨hall_ok c (List.mem_cons_self _ _), hall_lt c (List.mem_cons_self _ _)⟩,
        fun x hx => hall_ok x (List.mem_cons_of_mem c hx), hhead_lt, hrest_sorted⟩

theorem isValid_iff (coins : DecCoins) :
    DecCoins.IsValid coins = true ↔
      (SortedDenoms coins ∧ ∀ c ∈ coins, validOk c) := by
  match coins with
  | [] => simp [DecCoins.IsValid, SortedDenoms]
  | [c] =>
    simp only [DecCoins.IsValid, validate_bool_iff]
    constructor
    · intro h
      refine ⟨List.pairwise_singleton _ _, fun x hx => ?_⟩
      rcases List.mem_singleton.mp hx with rfl
      exact h
    · intro ⟨_, h⟩
      exact h c (List.mem_singleton_self c)
  | a :: b :: rest =>
    simp only [DecCoins.IsValid, Bool.and_eq_true, validate_bool_iff,
      validAscFrom_iff (b :: rest) a.Denom]
    constructor
    · rintro ⟨hok, hall_ok, hall_lt, hsorted⟩
      refine ⟨List.pairwise_cons.mpr ⟨hall_lt, hsorted⟩, fun x hx => ?_⟩
      rcases List.mem_cons.mp hx with rfl | hx2
      · exact hok
      · exact hall_ok x hx2
    · rintro ⟨hsorted, hall_ok⟩
      obtain ⟨hhead_lt, hrest_sorted⟩ := List.pairwise_cons.mp hsorted
      exact ⟨hall_ok a (List.mem_cons_self _ _),
        fun x hx => hall_ok x (List.mem_cons_of_mem a hx), hhead_lt, hrest_sorted⟩

theorem plus_isValid {A B : DecCoins}
    (hA : DecCoins.IsValid A = true) (hB : DecCoins.IsValid B = true) :
    DecCoins.IsValid (DecCoins.Plus A B) = true := by
  obtain ⟨hsA, hvA⟩ := (isValid_iff A).mp hA
  obtain ⟨hsB, hvB⟩ := (isValid_iff B).mp hB
  refine (isValid_iff _).mpr ⟨plus_sorted A B hsA hsB, fun x hx => ?_⟩
  rcases mem_plus A B x hx with h | h | ⟨a2, ha2, b2, hb2, hdd, hxx⟩
  · exact hvA x h
  · exact hvB x h
  · have hva := (validOk_iff a2).mp (hvA a2 ha2)
    have hvb := (validOk_iff b2).mp (hvB b2 hb2)
    refine (validOk_iff x).mpr ?_
    rw [hxx]
    refine ⟨?_, hva.2.1, hva.2.2⟩
    simp only [Dec.Add]
    omega

/-! ### Canonical sets are determined by their lookup function -/

theorem lookup_head (c : DecCoin) (l : DecCoins) :
    lookupAmount (c :: l) c.Denom = c.Amount := by
  rw [lookup_cons, if_pos rfl]

theorem validOk_amount_ne_zero {c : DecCoin} (h : validOk c) : c.Amount ≠ ZeroDec := by
  have hv := ((validOk_iff c).mp h).1
  intro hz
  rw [hz] at hv
  simp [ZeroDec] at hv

theorem valid_ext : ∀ (A B : DecCoins),
    SortedDenoms A → (∀ c ∈ A, validOk c) →
    SortedDenoms B → (∀ c ∈ B, validOk c) →
    (∀ d, lookupAmount A d = lookupAmount B d) → A = B := by
  intro A
  induction A with
  | nil =>
    intro B _ _ _ hvB hlook
    cases B with
    | nil => rfl
    | cons b B' =>
      exfalso
      have h := hlook b.Denom
      rw [lookup_head] at h
      exact validOk_amount_ne_zero (hvB b (List.mem_cons_self _ _)) h.symm
  | cons a A' ihA =>
    intro B hsA hvA hsB hvB hlook
    cases B with
    | nil =>
      exfalso
      have h := hlook a.Denom
      rw [lookup_head] at h
      exact validOk_amount_ne_zero (hvA a (List.mem_cons_self _ _)) h
    | cons b B' =>
      have hsA' : SortedDenoms A' := hsA.of_cons
      have hsB' : SortedDenoms B' := hsB.of_cons
      have hAbound : ∀ x ∈ A', a.Denom < x.Denom := (List.pairwise_cons.mp hsA).1
      have hBbound : ∀ x ∈ B', b.Denom < x.Denom := (List.pairwise_cons.mp hsB).1
      have hAzero : lookupAmount A' a.Denom = ZeroDec :=
        lookup_eq_zero_of_forall_ne
          (fun y hy => fun hne => absurd hne (ne_of_gt (hAbound y hy)))
      have hBzero : lookupAmount B' b.Denom = ZeroDec :=
        lookup_eq_zero_of_forall_ne
          (fun y hy => fun hne => absurd hne (ne_of_gt (hBbound y hy)))
      have hde : a.Denom = b.Denom := by
        by_contra hne
        rcases lt_or_gt_of_ne hne with hlt | hgt
        · have h := hlook a.Denom
          rw [lookup_head, lookup_cons, if_neg (ne_of_gt hlt)] at h
          have hz : lookupAmount B' a.Denom = ZeroDec :=
            lookup_eq_zero_of_forall_ne (fun y hy => fun hne2 =>
              absurd hne2 (ne_of_gt (lt_trans hlt (hBbound y hy))))
          rw [hz] at h
          exact validOk_amount_ne_zero (hvA a (List.mem_cons_self _ _)) h
        · have h := hlook b.Denom
          rw [lookup_head, lookup_cons, if_neg (ne_of_gt hgt)] at h
          have hz : lookupAmount A' b.Denom = ZeroDec :=
            lookup_eq_zero_of_forall_ne (fun y hy => fun hne2 =>
              absurd hne2 (ne_of_gt (lt_trans hgt (hAbound y hy))))
          rw [hz] at h
          exact validOk_amount_ne_zero (hvB b (List.mem_cons_self _ _)) h.symm
      have hamount : a.Amount = b.Amount := by
        have h := hlook a.Denom
        rw [lookup_head, lookup_cons, if_pos hde.symm] at h
        exact h
      have htails : ∀ d, lookupAmount A' d = lookupAmount B' d := by
        intro d
        by_cases hd : a.Denom = d
        · rw [← hd, hAzero, hde, hBzero]
        · have h := hlook d
          rw [lookup_cons, lookup_cons, if_neg hd, if_neg (fun h2 => hd (hde.trans h2))] at h
          exact h
      have heq : A' = B' := ihA B' hsA'
        (fun x hx => hvA x (List.mem_cons_of_mem a hx)) hsB'
        (fun x hx => hvB x (List.mem_cons_of_mem b hx)) htails
      cases a with
      | mk ad aa =>
        cases b with
        | mk bd ba =>
          simp only at hde hamount
          rw [hde, hamount, heq]

/-! ### Plus of a set with its negation -/

theorem plus_neg_self : ∀ A : DecCoins, DecCoins.Plus A (DecCoins.Negative A) = [] := by
  intro A
  induction A with
  | nil => rw [DecCoins.Negative]; simp [plus_nil_left]
  | cons a A' ih =>
    have hneg : DecCoins.Negative (a :: A') =
        ⟨a.Denom, a.Amount.Neg⟩ :: DecCoins.Negative A' := by
      simp [DecCoins.Negative]
    rw [hneg, plus_cons_cons]
    have hz : (a.Amount.Add (⟨a.Denom, a.Amount.Neg⟩ : DecCoin).Amount).IsZero = true := by
      simp [Dec.Add, Dec.Neg, Dec.IsZero]
    rw [if_neg (lt_irrefl a.Denom), if_pos rfl, if_pos hz]
    exact ih

/-! ### Linear lookup as first-match -/

theorem lookup_eq_find : ∀ (l : DecCoins) (d : String),
    lookupAmount l d =
      (match l.find? (fun c => c.Denom == d) with
        | some c => c.Amount
        | none => ZeroDec) := by
  intro l
  induction l with
  | nil => intro d; rfl
  | cons c rest ih =>
    intro d
    rw [lookup_cons, List.find?_cons]
    by_cases hd : c.Denom = d
    · simp [hd]
    · simp only [hd, if_neg hd]
      have : (c.Denom == d) = false := by simp [hd]
      rw [this]
      exact ih d

/-! ### Scalar operations are pointwise maps -/

theorem mulDec_eq_map : ∀ (coins : DecCoins) (d : Dec),
    DecCoins.MulDec coins d = coins.map (fun c => ⟨c.Denom, c.Amount.Mul d⟩) := by
  intro coins d
  induction coins with
  | nil => rfl
  | cons c rest ih => simp [DecCoins.MulDec, ih]

theorem mulDecTruncate_eq_map : ∀ (coins : DecCoins) (d : Dec),
    DecCoins.MulDecTruncate coins d =
      coins.map (fun c => ⟨c.Denom, c.Amount.MulTruncate d⟩) := by
  intro coins d
  induction coins with
  | nil => rfl
  | cons c rest ih => simp [DecCoins.MulDecTruncate, ih]

theorem quoDec_eq_map : ∀ (coins : DecCoins) (d : Dec),
    DecCoins.QuoDec coins d = coins.map (fun c => ⟨c.Denom, c.Amount.Quo d⟩) := by
  intro coins d
  induction coins with
  | nil => rfl
  | cons c rest ih => simp [DecCoins.QuoDec, ih]

theorem quoDecTruncate_eq_map : ∀ (coins : DecCoins) (d : Dec),
    DecCoins.QuoDecTruncate coins d =
      coins.map (fun c => ⟨c.Denom, c.Amount.QuoTruncate d⟩) := by
  intro coins d
  induction coins with
  | nil => rfl
  | cons c rest ih => simp [DecCoins.QuoDecTruncate, ih]

/-! ### Truncation lemmas -/

theorem decOne_pos : 0 < decOne := by
  unfold decOne decPrecision
  positivity

theorem decCoin_truncate_of_nonneg (c : DecCoin)
    (hnn : 0 ≤ c.Amount.val)
    (hsp : coinDenomHasSpace c.Denom = false)
    (hup : coinDenomHasUpper c.Denom = false) :
    DecCoin.TruncateDecimal c =
      some (⟨c.Denom, c.Amount.val.tdiv decOne⟩,
        ⟨c.Denom, ⟨c.Amount.val - c.Amount.val.tdiv decOne * decOne⟩⟩) := by
  have hone := decOne_pos
  have htd : c.Amount.val.tdiv decOne = c.Amount.val / decOne :=
    Int.tdiv_eq_ediv hnn (le_of_lt hone)
  have hmoddef : c.Amount.val % decOne = c.Amount.val - decOne * (c.Amount.val / decOne) :=
    Int.emod_def _ _
  have hmodnn : 0 ≤ c.Amount.val % decOne := Int.emod_nonneg _ (ne_of_gt hone)
  have hcomm : c.Amount.val / decOne * decOne = decOne * (c.Amount.val / decOne) :=
    mul_comm _ _
  have hchange_nn : 0 ≤ c.Amount.val - c.Amount.val.tdiv decOne * decOne := by
    rw [htd]; linarith
  have htrunc_nn : 0 ≤ c.Amount.val.tdiv decOne := Int.tdiv_nonneg hnn (le_of_lt hone)
  unfold DecCoin.TruncateDecimal NewCoin NewDecCoinFromDec DecCoin.Validate
    validateDecCoinAmount validateCoinDenomContainsSpace validateCoinDenomCase
    Dec.TruncateInt Dec.Sub NewDecFromInt Dec.LT Dec.LTE
  simp [hsp, hup, bind, Option.bind, Except.bind, ZeroDec, not_lt.mpr htrunc_nn,
    not_lt.mpr hchange_nn]

theorem plus_singleton_append : ∀ (L : DecCoins) (c : DecCoin),
    (∀ x ∈ L, x.Denom < c.Denom) → DecCoins.Plus L [c] = L ++ [c] := by
  intro L c h
  induction L with
  | nil => rw [plus_nil_left]; rfl
  | cons x L' ih =>
    rw [plus_cons_cons, if_pos (h x (List.mem_cons_self _ _))]
    rw [ih (fun y hy => h y (List.mem_cons_of_mem x hy))]
    rfl

/-- The integer part of a truncated coin. -/
def truncCoinInt (c : DecCoin) : Coin := ⟨c.Denom, c.Amount.val.tdiv decOne⟩

/-- The change part of a truncated coin. -/
def truncCoinChange (c : DecCoin) : DecCoin :=
  ⟨c.Denom, ⟨c.Amount.val - c.Amount.val.tdiv decOne * decOne⟩⟩

theorem truncGo_spec : ∀ (coins : DecCoins) (out : Coins) (changeSum : DecCoins),
    (∀ c ∈ coins, 0 ≤ c.Amount.val ∧ coinDenomHasSpace c.Denom = false ∧
      coinDenomHasUpper c.Denom = false) →
    SortedDenoms coins →
    (∀ x ∈ changeSum, ∀ c ∈ coins, x.Denom < c.Denom) →
    DecCoins.truncGo coins out changeSum =
      some (out ++ coins.map truncCoinInt, changeSum ++ coins.map truncCoinChange) := by
  intro coins
  induction coins with
  | nil =>
    intro out changeSum _ _ _
    simp [DecCoins.truncGo]
  | cons c rest ih =>
    intro out changeSum hv hs hacc
    have hvc := hv c (List.mem_cons_self _ _)
    have hstep := decCoin_truncate_of_nonneg c hvc.1 hvc.2.1 hvc.2.2
    have hplus : DecCoins.Plus changeSum [truncCoinChange c] =
        changeSum ++ [truncCoinChange c] := by
      refine plus_singleton_append changeSum (truncCoinChange c) (fun x hx => ?_)
      exact hacc x hx c (List.mem_cons_self _ _)
    have hbound : ∀ x ∈ rest, c.Denom < x.Denom := (List.pairwise_cons.mp hs).1
    have hacc2 : ∀ x ∈ changeSum ++ [truncCoinChange c], ∀ y ∈ rest, x.Denom < y.Denom := by
      intro x hx y hy
      rcases List.mem_append.mp hx with hx1 | hx2
      · exact hacc x hx1 y (List.mem_cons_of_mem c hy)
      · rcases List.mem_singleton.mp hx2 with rfl
        exact hbound y hy
    rw [DecCoins.truncGo, hstep]
    simp only [bind, Option.bind]
    rw [show (⟨c.Denom, ⟨c.Amount.val - c.Amount.val.tdiv decOne * decOne⟩⟩ : DecCoin) =
      truncCoinChange c from rfl, hplus,
      show (⟨c.Denom, c.Amount.val.tdiv decOne⟩ : Coin) = truncCoinInt c from rfl,
      ih (out ++ [truncCoinInt c]) (changeSum ++ [truncCoinChange c])
        (fun x hx => hv x (List.mem_cons_of_mem c hx)) hs.of_cons hacc2]
    simp [truncCoinInt]

theorem truncateDecimal_of_valid (coins : DecCoins)
    (hv : ∀ c ∈ coins, 0 ≤ c.Amount.val ∧ coinDenomHasSpace c.Denom = false ∧
      coinDenomHasUpper c.Denom = false)
    (hs : SortedDenoms coins) :
    DecCoins.TruncateDecimal coins =
      some (coins.map truncCoinInt, coins.map truncCoinChange) := by
  rw [DecCoins.TruncateDecimal,
    truncGo_spec coins [] [] hv hs (fun x hx => absurd hx (List.not_mem_nil x))]
  simp

theorem truncateDecimal_as_bind (c : DecCoin) :
    DecCoin.TruncateDecimal c =
      (NewCoin c.Denom (c.Amount.val.tdiv decOne)).bind (fun intCoin =>
        (NewDecCoinFromDec c.Denom
            ⟨c.Amount.val - c.Amount.val.tdiv decOne * decOne⟩).bind
          (fun changeCoin => some (intCoin, changeCoin))) := rfl

theorem decCoin_truncate_neg_none (c : DecCoin) (h : c.Amount.val < 0) :
    DecCoin.TruncateDecimal c = none := by
  have hone := decOne_pos
  have hnegt : c.Amount.val.tdiv decOne = -((-c.Amount.val).tdiv decOne) := by
    rw [← Int.neg_tdiv, neg_neg]
  have htd : (-c.Amount.val).tdiv decOne = (-c.Amount.val) / decOne :=
    Int.tdiv_eq_ediv (by omega) (le_of_lt hone)
  have hdef : (-c.Amount.val) % decOne =
      (-c.Amount.val) - decOne * ((-c.Amount.val) / decOne) := Int.emod_def _ _
  have hmodnn : 0 ≤ (-c.Amount.val) % decOne := Int.emod_nonneg _ (ne_of_gt hone)
  rw [truncateDecimal_as_bind]
  by_cases hz : (-c.Amount.val) % decOne = 0
  · have hq : 0 < (-c.Amount.val) / decOne := by
      have hprod : 0 < decOne * ((-c.Amount.val) / decOne) := by omega
      rcases mul_pos_iff.mp hprod with ⟨_, hq⟩ | ⟨hbad, _⟩
      · exact hq
      · exact absurd hone (not_lt.mpr (le_of_lt hbad))
    have htneg : c.Amount.val.tdiv decOne < 0 := by
      rw [hnegt, htd]; omega
    have hNC : NewCoin c.Denom (c.Amount.val.tdiv decOne) = none := by
      unfold NewCoin
      rw [if_pos htneg]
    rw [hNC]
    rfl
  · have hchange : c.Amount.val - c.Amount.val.tdiv decOne * decOne < 0 := by
      have heq : c.Amount.val - c.Amount.val.tdiv decOne * decOne =
          -((-c.Amount.val) % decOne) := by
        rw [hnegt, htd, hdef]; ring
      omega
    have hND : NewDecCoinFromDec c.Denom
        ⟨c.Amount.val - c.Amount.val.tdiv decOne * decOne⟩ = none := by
      unfold NewDecCoinFromDec DecCoin.Validate validateDecCoinAmount Dec.LT
      simp [Except.bind, bind, ZeroDec, hchange]
    cases hNC : NewCoin c.Denom (c.Amount.val.tdiv decOne) with
    | none => rfl
    | some intCoin => simp [hNC, hND]

theorem truncGo_none : ∀ (coins : DecCoins) (out : Coins) (acc : DecCoins),
    (∃ c ∈ coins, c.Amount.val < 0) → DecCoins.truncGo coins out acc = none := by
  intro coins
  induction coins with
  | nil =>
    intro out acc ⟨x, hx, _⟩
    exact absurd hx (List.not_mem_nil x)
  | cons c rest ih =>
    intro out acc ⟨x, hx, hneg⟩
    rcases List.mem_cons.mp hx with rfl | hx2
    · rw [DecCoins.truncGo, decCoin_truncate_neg_none x hneg]
      rfl
    · cases hc : c.TruncateDecimal with
      | none => rw [DecCoins.truncGo, hc]; rfl
      | some p =>
        rw [DecCoins.truncGo, hc]
        cases p with
        | mk truncated change =>
          simpa [bind, Option.bind] using
            ih (out ++ [truncated]) (acc.Plus [change]) ⟨x, hx2, hneg⟩

/-! ### Per-denom conservation of truncation -/

theorem coinsLookup_cons (c : Coin) (l : Coins) (d : String) :
    coinsLookup (c :: l) d = if c.Denom = d then c.Amount else coinsLookup l d := rfl

theorem trunc_conservation_pointwise : ∀ (D : DecCoins) (d : String),
    (NewDecFromInt (coinsLookup (D.map truncCoinInt) d)).Add
      (lookupAmount (D.map truncCoinChange) d) = lookupAmount D d := by
  intro D d
  induction D with
  | nil =>
    refine dec_eq_of_val ?_
    simp [coinsLookup, lookupAmount, NewDecFromInt, Dec.Add, ZeroDec]
  | cons c rest ih =>
    simp only [List.map_cons]
    rw [coinsLookup_cons, lookup_cons, lookup_cons]
    simp only [truncCoinInt, truncCoinChange]
    by_cases hd : c.Denom = d
    · rw [if_pos hd, if_pos hd, if_pos hd]
      refine dec_eq_of_val ?_
      simp only [NewDecFromInt, Dec.Add]
      ring
    · rw [if_neg hd, if_neg hd, if_neg hd]
      exact ih

theorem truncCoinChange_bounds (c : DecCoin) (hnn : 0 ≤ c.Amount.val) :
    0 ≤ (truncCoinChange c).Amount.val ∧ (truncCoinChange c).Amount.val < decOne := by
  have hone := decOne_pos
  have htd : c.Amount.val.tdiv decOne = c.Amount.val / decOne :=
    Int.tdiv_eq_ediv hnn (le_of_lt hone)
  have hdef : c.Amount.val % decOne =
      c.Amount.val - decOne * (c.Amount.val / decOne) := Int.emod_def _ _
  have hmodnn : 0 ≤ c.Amount.val % decOne := Int.emod_nonneg _ (ne_of_gt hone)
  have hmodlt : c.Amount.val % decOne < decOne := Int.emod_lt_of_pos _ hone
  have hcomm : c.Amount.val / decOne * decOne = decOne * (c.Amount.val / decOne) :=
    mul_comm _ _
  constructor
  · simp only [truncCoinChange]
    rw [htd]
    linarith
  · simp only [truncCoinChange]
    rw [htd]
    linarith

/-! ### Parsing lemmas -/

theorem parseAllTokens_error : ∀ (ts : List String),
    (∃ t ∈ ts, ∃ e, ParseDecCoin t = Except.error e) →
    ∃ e2, parseAllTokens ts = Except.error e2 := by
  intro ts
  induction ts with
  | nil =>
    intro ⟨t, ht, _⟩
    exact absurd ht (List.not_mem_nil t)
  | cons t0 ts' ih =>
    intro ⟨t, ht, e, he⟩
    rcases List.mem_cons.mp ht with rfl | ht2
    · refine ⟨e, ?_⟩
      rw [parseAllTokens, he]
      rfl
    · cases h0 : ParseDecCoin t0 with
      | error e0 =>
        refine ⟨e0, ?_⟩
        rw [parseAllTokens, h0]
        rfl
      | ok c0 =>
        obtain ⟨e2, he2⟩ := ih ⟨t, ht2, e, he⟩
        refine ⟨e2, ?_⟩
        rw [parseAllTokens, h0]
        simp [bind, Except.bind, he2]

theorem parseDecCoins_ok_isValid : ∀ (s : String) (coins : DecCoins),
    ParseDecCoins s = Except.ok coins → DecCoins.IsValid coins = true := by
  intro s coins h
  unfold ParseDecCoins at h
  by_cases hempty : (strTrim s).data.length = 0
  · rw [if_pos hempty] at h
    cases h
    rfl
  · rw [if_neg hempty] at h
    cases hall : parseAllTokens (splitTokens (strTrim s)) with
    | error e => rw [hall] at h; exact absurd h (by simp [bind, Except.bind])
    | ok cs =>
      rw [hall] at h
      simp only [bind, Except.bind] at h
      by_cases hvalid : DecCoins.IsValid (sortByDenom cs) = true
      · rw [if_pos hvalid] at h
        cases h
        exact hvalid
      · rw [if_neg hvalid] at h
        exact absurd h (by simp)

/-! ### The lax validation mode characterized -/

theorem validate_lax_iff (c : DecCoin) :
    c.Validate false = Except.ok () ↔
      (0 ≤ c.Amount.val ∧ coinDenomHasSpace c.Denom = false ∧
        coinDenomHasUpper c.Denom = false) := by
  unfold DecCoin.Validate validateDecCoinAmount validateCoinDenomContainsSpace
    validateCoinDenomCase
  simp only [Dec.LTE, Dec.LT, ZeroDec, Bool.false_and, Bool.not_false, Bool.true_and]
  by_cases h1 : c.Amount.val < 0
  · simp [h1, Except.bind, Bind.bind]
  · simp only [h1, decide_False]
    by_cases h2 : coinDenomHasSpace c.Denom
    · simp [h2, Except.bind, Bind.bind]
    · by_cases h3 : coinDenomHasUpper c.Denom
      · simp [h2, h3, Except.bind, Bind.bind]
      · simp [h2, h3, Except.bind, Bind.bind]
        omega

/-! ### Claim theorems -/

/-- C1 counterexample: the claim quantifies over any `DecCoins`, but on the
set containing the single entry `(atom, -1·10⁻¹⁸)` the truncation panics
(embedded as `none`), because the negative fractional remainder is rebuilt
through the non-negative validating constructor; no pair `(I, R)` is
returned at all. -/
theorem c1_counterexample :
    DecCoins.TruncateDecimal [(⟨"atom", ⟨-1⟩⟩ : DecCoin)] = none := by
  rw [DecCoins.TruncateDecimal]
  exact truncGo_none [⟨"atom", ⟨-1⟩⟩] [] []
    ⟨⟨"atom", ⟨-1⟩⟩, List.mem_singleton_self _, by decide⟩

/-- C1 (amended): for every `DecCoins` D that is strictly sorted by denom,
whose amounts are all non-negative and whose denoms pass the denom checks,
`TruncateDecimal` returns `some (I, R)` such that for every denom `d` the
integer part `I[d]` plus the remainder `R[d]` equals `D[d]` exactly, and
every entry of `R` lies in the half-open interval `[0, 1)`. -/
theorem c1_truncateDecimal_conservation (D : DecCoins)
    (hs : SortedDenoms D)
    (hv : ∀ c ∈ D, 0 ≤ c.Amount.val ∧ coinDenomHasSpace c.Denom = false ∧
      coinDenomHasUpper c.Denom = false) :
    ∃ I R, DecCoins.TruncateDecimal D = some (I, R) ∧
      (∀ d : String,
        (NewDecFromInt (coinsLookup I d)).Add (lookupAmount R d) = lookupAmount D d) ∧
      (∀ c ∈ R, ZeroDec.LTE c.Amount = true ∧ c.Amount.LT OneDec = true) := by
  refine ⟨D.map truncCoinInt, D.map truncCoinChange,
    truncateDecimal_of_valid D hv hs, trunc_conservation_pointwise D, ?_⟩
  intro c hc
  obtain ⟨x, hx, rfl⟩ := List.mem_map.mp hc
  have hb := truncCoinChange_bounds x (hv x hx).1
  constructor
  · simp only [Dec.LTE, ZeroDec, decide_eq_true_eq]
    exact hb.1
  · simp only [Dec.LT, OneDec, decide_eq_true_eq]
    exact hb.2

/-- Witness for C1: truncating the valid set `[(atom, 3.7)]` succeeds and
satisfies the conservation and remainder-range properties. -/
theorem c1_witness :
    ∃ I R, DecCoins.TruncateDecimal
        [(⟨"atom", ⟨3700000000000000000⟩⟩ : DecCoin)] = some (I, R) ∧
      (∀ d : String,
        (NewDecFromInt (coinsLookup I d)).Add (lookupAmount R d) =
          lookupAmount [(⟨"atom", ⟨3700000000000000000⟩⟩ : DecCoin)] d) ∧
      (∀ c ∈ R, ZeroDec.LTE c.Amount = true ∧ c.Amount.LT OneDec = true) :=
  c1_truncateDecimal_conservation [⟨"atom", ⟨3700000000000000000⟩⟩]
    (by decide) (by decide)

/-- C2: for all canonical (`IsValid`) `DecCoins` A and B, `Plus A B` is
canonical, `Plus` is commutative and associative on canonical sets, and for
every denom `d`, `AmountOf d (Plus A B) = AmountOf d A + AmountOf d B`. -/
theorem c2_plus_algebra (A B : DecCoins)
    (hA : DecCoins.IsValid A = true) (hB : DecCoins.IsValid B = true) :
    DecCoins.IsValid (DecCoins.Plus A B) = true ∧
    DecCoins.Plus A B = DecCoins.Plus B A ∧
    (∀ C : DecCoins, DecCoins.IsValid C = true →
      DecCoins.Plus (DecCoins.Plus A B) C = DecCoins.Plus A (DecCoins.Plus B C)) ∧
    (∀ d : String, DecCoins.AmountOf (DecCoins.Plus A B) d =
      (DecCoins.AmountOf A d).Add (DecCoins.AmountOf B d)) := by
  obtain ⟨hsA, hvA⟩ := (isValid_iff A).mp hA
  obtain ⟨hsB, hvB⟩ := (isValid_iff B).mp hB
  have hvalid := plus_isValid hA hB
  refine ⟨hvalid, ?_, ?_, ?_⟩
  · obtain ⟨hs1, hv1⟩ := (isValid_iff _).mp hvalid
    obtain ⟨hs2, hv2⟩ := (isValid_iff _).mp (plus_isValid hB hA)
    refine valid_ext _ _ hs1 hv1 hs2 hv2 (fun d => ?_)
    rw [lookup_plus A B hsA hsB d, lookup_plus B A hsB hsA d, dec_add_comm]
  · intro C hC
    obtain ⟨hsC, hvC⟩ := (isValid_iff C).mp hC
    have hAB := plus_isValid hA hB
    have hBC := plus_isValid hB hC
    obtain ⟨hsAB, hvAB⟩ := (isValid_iff _).mp hAB
    obtain ⟨hsBC, hvBC⟩ := (isValid_iff _).mp hBC
    obtain ⟨hs1, hv1⟩ := (isValid_iff _).mp (plus_isValid hAB hC)
    obtain ⟨hs2, hv2⟩ := (isValid_iff _).mp (plus_isValid hA hBC)
    refine valid_ext _ _ hs1 hv1 hs2 hv2 (fun d => ?_)
    rw [lookup_plus _ C hsAB hsC d, lookup_plus A B hsA hsB d,
      lookup_plus A _ hsA hsBC d, lookup_plus B C hsB hsC d, dec_add_assoc]
  · intro d
    have hsAB : SortedDenoms (DecCoins.Plus A B) := plus_sorted A B hsA hsB
    rw [amountOf_eq_lookup _ hsAB d, amountOf_eq_lookup A hsA d,
      amountOf_eq_lookup B hsB d, lookup_plus A B hsA hsB d]

/-- Witness for C2: commutativity of `Plus` on two concrete canonical sets. -/
theorem c2_witness :
    DecCoins.Plus [(⟨"atom", ⟨5⟩⟩ : DecCoin)] [(⟨"btc", ⟨7⟩⟩ : DecCoin)] =
      DecCoins.Plus [(⟨"btc", ⟨7⟩⟩ : DecCoin)] [(⟨"atom", ⟨5⟩⟩ : DecCoin)] :=
  (c2_plus_algebra [⟨"atom", ⟨5⟩⟩] [⟨"btc", ⟨7⟩⟩] (by decide) (by decide)).2.1

/-- C3: for every canonical (`IsValid`) `DecCoins` A, `Minus A A` is the
empty set, and `Plus A (Negative A)` sums to zero for every denom and
yields the empty canonical set. -/
theorem c3_minus_self (A : DecCoins) (_h : DecCoins.IsValid A = true) :
    DecCoins.Minus A A = [] ∧
    (∀ d : String, DecCoins.AmountOf (DecCoins.Plus A (DecCoins.Negative A)) d = ZeroDec) ∧
    DecCoins.Plus A (DecCoins.Negative A) = [] ∧
    DecCoins.IsValid (DecCoins.Plus A (DecCoins.Negative A)) = true := by
  have hself := plus_neg_self A
  refine ⟨hself, ?_, hself, ?_⟩
  · intro d
    rw [hself]
    simp [DecCoins.AmountOf]
  · rw [hself]
    rfl

/-- Witness for C3: `Minus` of a concrete canonical set from itself is empty. -/
theorem c3_witness :
    DecCoins.Minus [(⟨"atom", ⟨5⟩⟩ : DecCoin)] [(⟨"atom", ⟨5⟩⟩ : DecCoin)] = [] :=
  (c3_minus_self [⟨"atom", ⟨5⟩⟩] (by decide)).1

/-- C4: on any strictly-sorted set, the binary-search `AmountOf` returns
the amount of the entry whose denom matches, the zero decimal when no entry
matches; the empty set yields zero for every denom, and the singleton
`[(atom, 5)]` yields 5 for `atom` and 0 for `uatom`. -/
theorem c4_amountOf_correct :
    (∀ (coins : DecCoins) (d : String), SortedDenoms coins →
      DecCoins.AmountOf coins d =
        (match coins.find? (fun c => c.Denom == d) with
          | some c => c.Amount
          | none => ZeroDec)) ∧
    (∀ d : String, DecCoins.AmountOf [] d = ZeroDec) ∧
    DecCoins.AmountOf [(⟨"atom", NewDec 5⟩ : DecCoin)] "atom" = NewDec 5 ∧
    DecCoins.AmountOf [(⟨"atom", NewDec 5⟩ : DecCoin)] "uatom" = ZeroDec := by
  refine ⟨?_, ?_, by simp [DecCoins.AmountOf], by simp [DecCoins.AmountOf]⟩
  · intro coins d hs
    rw [amountOf_eq_lookup coins hs d, lookup_eq_find]
  · intro d
    simp [DecCoins.AmountOf]

/-- Witness for C4: the general clause applied to a concrete sorted
two-entry set. -/
theorem c4_witness :
    DecCoins.AmountOf [(⟨"atom", NewDec 5⟩ : DecCoin), ⟨"btc", NewDec 2⟩] "btc" =
      NewDec 2 :=
  (c4_amountOf_correct.1 [⟨"atom", NewDec 5⟩, ⟨"btc", NewDec 2⟩] "btc"
    (by
      simp [SortedDenoms, List.pairwise_cons, String.lt_iff_toList_lt]
      decide)).trans (by decide)

/-- C5: `IsValid` holds exactly when the set is strictly sorted by denom
(which excludes duplicates and unsorted input) and every entry passes
strict validation (which excludes zero and negative amounts); in
particular it accepts the empty set, a single valid positive entry and any
strictly-increasing sequence of valid positive entries. -/
theorem c5_isValid_characterization (coins : DecCoins) :
    DecCoins.IsValid coins = true ↔
      (SortedDenoms coins ∧ ∀ c ∈ coins, c.Validate true = Except.ok ()) :=
  isValid_iff coins

/-- Witness for C5: a concrete strictly-increasing positive set is valid. -/
theorem c5_witness :
    DecCoins.IsValid [(⟨"atom", ⟨1⟩⟩ : DecCoin), ⟨"btc", ⟨2⟩⟩] = true :=
  (c5_isValid_characterization [⟨"atom", ⟨1⟩⟩, ⟨"btc", ⟨2⟩⟩]).mpr
    (by
      refine ⟨?_, by decide⟩
      simp [SortedDenoms, List.pairwise_cons, String.lt_iff_toList_lt]
      decide)

/-- C6: each of `MulDec`, `MulDecTruncate`, `QuoDec`, `QuoDecTruncate`
maps the corresponding scalar operation over every entry, preserving denom,
position and length; entries whose amount becomes zero are kept. -/
theorem c6_scalar_ops_pointwise (coins : DecCoins) (d : Dec) :
    DecCoins.MulDec coins d = coins.map (fun c => ⟨c.Denom, c.Amount.Mul d⟩) ∧
    DecCoins.MulDecTruncate coins d =
      coins.map (fun c => ⟨c.Denom, c.Amount.MulTruncate d⟩) ∧
    DecCoins.QuoDec coins d = coins.map (fun c => ⟨c.Denom, c.Amount.Quo d⟩) ∧
    DecCoins.QuoDecTruncate coins d =
      coins.map (fun c => ⟨c.Denom, c.Amount.QuoTruncate d⟩) ∧
    (DecCoins.MulDec coins d).length = coins.length ∧
    (DecCoins.MulDecTruncate coins d).length = coins.length ∧
    (DecCoins.QuoDec coins d).length = coins.length ∧
    (DecCoins.QuoDecTruncate coins d).length = coins.length := by
  refine ⟨mulDec_eq_map coins d, mulDecTruncate_eq_map coins d, quoDec_eq_map coins d,
    quoDecTruncate_eq_map coins d, ?_, ?_, ?_, ?_⟩ <;>
    simp [mulDec_eq_map, mulDecTruncate_eq_map, quoDec_eq_map, quoDecTruncate_eq_map]

/-- C7: an empty or whitespace-only string parses to the empty set without
error; if any comma- or semicolon-separated token fails, the whole call
errors with no partial result; a successful parse is canonical (`IsValid`)
and sorted by denom. -/
theorem c7_parseDecCoins_spec :
    (∀ s : String, strTrim s = "" → ParseDecCoins s = Except.ok []) ∧
    (∀ s : String, strTrim s ≠ "" →
      (∃ t ∈ splitTokens (strTrim s), ∃ e, ParseDecCoin t = Except.error e) →
      ∃ e2, ParseDecCoins s = Except.error e2) ∧
    (∀ (s : String) (coins : DecCoins), ParseDecCoins s = Except.ok coins →
      DecCoins.IsValid coins = true ∧ SortedDenoms coins) := by
  refine ⟨?_, ?_, ?_⟩
  · intro s h
    have h0 : (strTrim s).data.length = 0 := by rw [h]; rfl
    simp only [ParseDecCoins]
    rw [if_pos h0]
  · intro s hne hex
    obtain ⟨e2, he2⟩ := parseAllTokens_error _ hex
    have h0 : ¬ (strTrim s).data.length = 0 := by
      intro h0
      apply hne
      cases hstr : strTrim s with
      | mk data =>
        rw [hstr] at h0
        have hd : data = [] := List.length_eq_zero.mp h0
        rw [hd]
    refine ⟨e2, ?_⟩
    simp only [ParseDecCoins]
    rw [if_neg h0, he2]
    rfl
  · intro s coins h
    have hvalid := parseDecCoins_ok_isValid s coins h
    exact ⟨hvalid, ((isValid_iff coins).mp hvalid).1⟩

/-- Witness for C7: the empty string parses to the empty set, and an
amount-less token makes the whole parse fail. -/
theorem c7_witness :
    ParseDecCoins "" = Except.ok [] ∧
    (∃ e2, ParseDecCoins "atom" = Except.error e2) :=
  ⟨c7_parseDecCoins_spec.1 "" rfl,
   c7_parseDecCoins_spec.2.1 "atom" (by decide)
     ⟨"atom", by decide,
      "failed to parse decimal coin: failed to parse decimal coin amount", by decide⟩⟩

/-- C8: adding or subtracting two single coins with different denoms is a
panic (`none`, the fatal class, distinct from the recoverable
`Except.error` validation class); with equal denoms the amounts are added
or subtracted. -/
theorem c8_decCoin_plus_minus (a b : DecCoin) :
    (a.Denom ≠ b.Denom → DecCoin.Plus a b = none ∧ DecCoin.Minus a b = none) ∧
    (a.Denom = b.Denom → DecCoin.Plus a b = some ⟨a.Denom, a.Amount.Add b.Amount⟩ ∧
      DecCoin.Minus a b = some ⟨a.Denom, a.Amount.Sub b.Amount⟩) := by
  constructor
  · intro h
    constructor
    · simp [DecCoin.Plus, h]
    · simp [DecCoin.Minus, h]
  · intro h
    constructor
    · simp [DecCoin.Plus, h]
    · simp [DecCoin.Minus, h]

/-- Witness for C8: a concrete denom mismatch panics; a concrete match adds. -/
theorem c8_witness :
    DecCoin.Plus ⟨"atom", ⟨1⟩⟩ ⟨"btc", ⟨1⟩⟩ = none ∧
    DecCoin.Minus ⟨"atom", ⟨3⟩⟩ ⟨"atom", ⟨1⟩⟩ = some ⟨"atom", ⟨2⟩⟩ :=
  ⟨((c8_decCoin_plus_minus ⟨"atom", ⟨1⟩⟩ ⟨"btc", ⟨1⟩⟩).1 (by decide)).1,
   (((c8_decCoin_plus_minus ⟨"atom", ⟨3⟩⟩ ⟨"atom", ⟨1⟩⟩).2 rfl).2).trans (by decide)⟩

/-- C9: for a coin whose denom passes the denom checks, lax validation
succeeds exactly when the amount is non-negative and strict validation
exactly when it is strictly positive; a violation yields a validation
error value, never a coerced result. -/
theorem c9_validate_modes (coin : DecCoin)
    (hsp : coinDenomHasSpace coin.Denom = false)
    (hup : coinDenomHasUpper coin.Denom = false) :
    (coin.Validate false = Except.ok () ↔ 0 ≤ coin.Amount.val) ∧
    (coin.Validate true = Except.ok () ↔ 0 < coin.Amount.val) ∧
    (coin.Amount.val < 0 → ∃ e, coin.Validate false = Except.error e) ∧
    (coin.Amount.val ≤ 0 → ∃ e, coin.Validate true = Except.error e) := by
  refine ⟨?_, ?_, ?_, ?_⟩
  · constructor
    · intro h
      exact ((validate_lax_iff coin).mp h).1
    · intro h
      exact (validate_lax_iff coin).mpr ⟨h, hsp, hup⟩
  · constructor
    · intro h
      exact ((validOk_iff coin).mp h).1
    · intro h
      exact (validOk_iff coin).mpr ⟨h, hsp, hup⟩
  · intro h
    cases hv : coin.Validate false with
    | error e => exact ⟨e, rfl⟩
    | ok u =>
      cases u
      exfalso
      have := ((validate_lax_iff coin).mp hv).1
      omega
  · intro h
    cases hv : coin.Validate true with
    | error e => exact ⟨e, rfl⟩
    | ok u =>
      cases u
      exfalso
      have := ((validOk_iff coin).mp hv).1
      omega

/-- Witness for C9: strict validation accepts a concrete positive coin. -/
theorem c9_witness :
    DecCoin.Validate ⟨"atom", ⟨5⟩⟩ true = Except.ok () :=
  ((c9_validate_modes ⟨"atom", ⟨5⟩⟩ (by decide) (by decide)).2.1).mpr (by decide)

/-- C10: truncating any single coin with a strictly negative amount panics
(`none`), and so does truncating any set containing such an entry; the
panic arises in the validating constructors (`NewCoin` for a negative
whole part, `NewDecCoinFromDec` for a negative fractional remainder). -/
theorem c10_truncate_negative_panics :
    (∀ c : DecCoin, c.Amount.IsNegative = true → DecCoin.TruncateDecimal c = none) ∧
    (∀ coins : DecCoins, (∃ c ∈ coins, c.Amount.IsNegative = true) →
      DecCoins.TruncateDecimal coins = none) := by
  have hneg : ∀ c : DecCoin, c.Amount.IsNegative = true → c.Amount.val < 0 := by
    intro c h
    simpa [Dec.IsNegative] using h
  refine ⟨fun c h => decCoin_truncate_neg_none c (hneg c h), ?_⟩
  rintro coins ⟨c, hc, h⟩
  rw [DecCoins.TruncateDecimal]
  exact truncGo_none coins [] [] ⟨c, hc, hneg c h⟩

/-- Witness for C10: truncating the single coin `(atom, -1·10⁻¹⁸)` panics. -/
theorem c10_witness : DecCoin.TruncateDecimal ⟨"atom", ⟨-1⟩⟩ = none :=
  c10_truncate_negative_panics.1 ⟨"atom", ⟨-1⟩⟩ (by decide)

end CosmosDec
